import Mathlib

/-!
Verification of the smooth-json flattening core (src/lib.rs).

The JSON value type is a shallow embedding of the externally supplied
serde_json Value.  Numbers are modelled as Int: the flattener never inspects
or computes with the numeric payload, it only moves values around, so the
exact representation of numbers is irrelevant to every property proved here.

Modelled from the spec: the manifest of the crate (Cargo.toml) is not part of
the sources, so the iteration/storage order of the serde_json Map type (the
JSON object representation and the flat accumulator) is taken from the
data-model section of the spec, which states that objects are a mapping from
String to Value with insertion order preserved.  Both are therefore modelled
as insertion-ordered association lists with the serde_json Map operations
get, insert (replace in place when the key exists, append otherwise) and
remove.

The two Rust walkers flatten_object / flatten_array each contain an inline
match on the current element that dispatches to the three traversal
routines.  Here those two inline matches are the named functions
flatten_entry (the loop body of flatten_object) and flatten_elem (the loop
body of flatten_array), so that the four functions form a mutual structural
recursion over the nested Value type; their bodies are otherwise verbatim
translations of the corresponding Rust match expressions.
-/

namespace SmoothJson

/-- Shallow embedding of the serde_json Value type. -/
inductive Value where
  | null : Value
  | bool : Bool → Value
  | num : Int → Value
  | str : String → Value
  | arr : List Value → Value
  | obj : List (String × Value) → Value

/-- The flat accumulator (and the payload of Value.obj): an insertion-ordered
association list standing for the serde_json Map type. -/
abbrev FlatMap := List (String × Value)

/-- Map get: the value stored under key, if any. -/
def mget : FlatMap → String → Option Value
  | [], _ => none
  | (k, v) :: rest, key => if k = key then some v else mget rest key

/-- Map insert: replace the value in place when the key is present, append
the binding at the end otherwise. -/
def mset : FlatMap → String → Value → FlatMap
  | [], key, val => [(key, val)]
  | (k, v) :: rest, key, val =>
      if k = key then (k, val) :: rest else (k, v) :: mset rest key val

/-- Map remove: drop the first binding for key, if present. -/
def mremove : FlatMap → String → FlatMap
  | [], _ => []
  | (k, v) :: rest, key => if k = key then rest else (k, v) :: mremove rest key

/-- The Flattener configuration struct. -/
structure Flattener where
  separator : String
  alt_array_flattening : Bool
  preserve_arrays : Bool

/-- Flattener default / new: separator is a dot, both mode flags off. -/
def Flattener.new : Flattener :=
  { separator := ".", alt_array_flattening := false, preserve_arrays := false }

/-- flatten_value, the leaf-writer: insert a value under identifier, merging
with any value already stored there; a fresh value is wrapped in a
one-element array when the arr flag is set. -/
def flatten_value (builder : FlatMap) (identifier : String) (obj : Value)
    (arr : Bool) : FlatMap :=
  match mget builder identifier with
  | some v =>
      match v with
      | Value.arr xs => mset builder identifier (Value.arr (xs ++ [obj]))
      | _ => mset (mremove builder identifier) identifier (Value.arr [v, obj])
  | none =>
      mset builder identifier (if arr then Value.arr [obj] else obj)

mutual

/-- The loop body of flatten_object: dispatch one object entry whose expanded
identifier has already been computed. -/
def flatten_entry (f : Flattener) (builder : FlatMap)
    (expanded_identifier : String) (v : Value) (arr : Bool) : FlatMap :=
  match v with
  | Value.obj obj_val =>
      flatten_object f builder (some expanded_identifier) obj_val arr
  | Value.arr obj_arr =>
      flatten_array f builder expanded_identifier obj_arr 0
  | _ => flatten_value builder expanded_identifier v arr
termination_by structural v

/-- flatten_object, the object-walker: for each entry compute the expanded
identifier (the key itself when there is no parent identifier, otherwise
parent, separator, key) and dispatch on the entry value. -/
def flatten_object (f : Flattener) (builder : FlatMap)
    (identifier : Option String) (obj : List (String × Value)) (arr : Bool) :
    FlatMap :=
  match obj with
  | [] => builder
  | (k, v) :: rest =>
      flatten_object f
        (flatten_entry f builder
          (match identifier with
           | none => k
           | some id => id ++ f.separator ++ k) v arr)
        identifier rest arr
termination_by structural obj

/-- The loop body of flatten_array: dispatch one array element whose
effective identifier has already been computed; the array-context flag
handed to the nested walk and to the leaf-writer is alt_array_flattening. -/
def flatten_elem (f : Flattener) (builder : FlatMap)
    (effective_identifier : String) (v : Value) : FlatMap :=
  match v with
  | Value.obj obj_val =>
      flatten_object f builder (some effective_identifier) obj_val
        f.alt_array_flattening
  | Value.arr obj_arr =>
      flatten_array f builder effective_identifier obj_arr 0
  | _ =>
      flatten_value builder effective_identifier v f.alt_array_flattening
termination_by structural v

/-- flatten_array, the array-walker: for the element at index k the effective
identifier is identifier, separator, index when preserve_arrays is set and
the plain identifier otherwise. -/
def flatten_array (f : Flattener) (builder : FlatMap) (identifier : String)
    (obj : List Value) (k : Nat) : FlatMap :=
  match obj with
  | [] => builder
  | v :: rest =>
      flatten_array f
        (flatten_elem f builder
          (if f.preserve_arrays then identifier ++ f.separator ++ Nat.repr k
           else identifier) v)
        identifier rest (k + 1)
termination_by structural obj

end

/-- flatten, the entry point: dispatch on the root and return the accumulator
wrapped as a JSON object. -/
def flatten (f : Flattener) (json : Value) : Value :=
  Value.obj
    (match json with
     | Value.arr obj_arr => flatten_array f [] "" obj_arr 0
     | Value.obj obj_val => flatten_object f [] none obj_val false
     | _ => flatten_value [] "" json false)

/-- A value that is neither an object nor an array. -/
def isScalar : Value → Bool
  | Value.obj _ => false
  | Value.arr _ => false
  | _ => true

/-- A value the flat result is allowed to store: a scalar, or an array all of
whose elements are scalars. -/
def flatValue : Value → Bool
  | Value.obj _ => false
  | Value.arr xs => xs.all isScalar
  | v => isScalar v

/-- Every value stored in the accumulator is a scalar or an array of
scalars. -/
def flatMapOk : FlatMap → Bool
  | [] => true
  | p :: rest => flatValue p.2 && flatMapOk rest

section MapLemmas

theorem mget_mset_self (m : FlatMap) (k : String) (v : Value) :
    mget (mset m k v) k = some v := by
  induction m with
  | nil => simp [mget, mset]
  | cons hd tl ih =>
      obtain ⟨a, w⟩ := hd
      by_cases h : a = k
      · simp [mget, mset, h]
      · simp [mget, mset, h, ih]

theorem mget_mset_ne (m : FlatMap) (k k' : String) (v : Value)
    (h : k' ≠ k) : mget (mset m k v) k' = mget m k' := by
  induction m with
  | nil => simp [mget, mset, Ne.symm h]
  | cons hd tl ih =>
      obtain ⟨a, w⟩ := hd
      by_cases ha : a = k
      · subst ha
        simp [mget, mset, Ne.symm h]
      · simp [mget, mset, ha, ih]

theorem mget_mremove_ne (m : FlatMap) (k k' : String) (h : k' ≠ k) :
    mget (mremove m k) k' = mget m k' := by
  induction m with
  | nil => simp [mget, mremove]
  | cons hd tl ih =>
      obtain ⟨a, w⟩ := hd
      by_cases ha : a = k
      · subst ha
        simp [mget, mremove, Ne.symm h]
      · simp [mget, mremove, ha, ih]

end MapLemmas

section LeafWriterLemmas

theorem flatten_value_absent (b : FlatMap) (id : String) (v : Value) (w : Bool)
    (h : mget b id = none) :
    flatten_value b id v w = mset b id (if w then Value.arr [v] else v) := by
  simp [flatten_value, h]

theorem flatten_value_arr (b : FlatMap) (id : String) (xs : List Value)
    (nv : Value) (w : Bool) (h : mget b id = some (Value.arr xs)) :
    flatten_value b id nv w = mset b id (Value.arr (xs ++ [nv])) := by
  simp [flatten_value, h]

theorem flatten_value_coll_nonarr (b : FlatMap) (id : String) (old nv : Value)
    (w : Bool) (h : mget b id = some old)
    (hna : ∀ ys, old ≠ Value.arr ys) :
    flatten_value b id nv w = mset (mremove b id) id (Value.arr [old, nv]) := by
  cases old with
  | arr l => exact absurd rfl (hna l)
  | obj o => simp [flatten_value, h]
  | null => simp [flatten_value, h]
  | bool x => simp [flatten_value, h]
  | num x => simp [flatten_value, h]
  | str x => simp [flatten_value, h]

theorem isScalar_not_arr (v : Value) (h : isScalar v = true) :
    ∀ ys, v ≠ Value.arr ys := by
  cases v <;> simp_all [isScalar]

end LeafWriterLemmas

section FlatInvariant

theorem flatValue_of_isScalar (v : Value) (h : isScalar v = true) :
    flatValue v = true := by
  cases v <;> simp_all [isScalar, flatValue]

theorem flatMapOk_iff (m : FlatMap) :
    flatMapOk m = true ↔ ∀ p ∈ m, flatValue p.2 = true := by
  induction m with
  | nil => simp [flatMapOk]
  | cons hd tl ih =>
      simp [flatMapOk, Bool.and_eq_true, ih, List.forall_mem_cons]

theorem flatValue_of_mget (m : FlatMap) (k : String) (v : Value)
    (hm : flatMapOk m = true) (h : mget m k = some v) : flatValue v = true := by
  induction m with
  | nil => simp [mget] at h
  | cons hd tl ih =>
      obtain ⟨a, w⟩ := hd
      simp only [flatMapOk, Bool.and_eq_true] at hm
      by_cases ha : a = k
      · rw [mget, if_pos ha] at h
        have hw := Option.some.inj h
        subst hw
        exact hm.1
      · rw [mget, if_neg ha] at h
        exact ih hm.2 h

theorem flatMapOk_mset (m : FlatMap) (k : String) (v : Value)
    (hm : flatMapOk m = true) (hv : flatValue v = true) :
    flatMapOk (mset m k v) = true := by
  induction m with
  | nil => simp [mset, flatMapOk, hv]
  | cons hd tl ih =>
      obtain ⟨a, w⟩ := hd
      simp only [flatMapOk, Bool.and_eq_true] at hm
      by_cases ha : a = k
      · simp [mset, ha, flatMapOk, hv, hm.2]
      · simp [mset, ha, flatMapOk, hm.1, ih hm.2]

theorem flatMapOk_mremove (m : FlatMap) (k : String)
    (hm : flatMapOk m = true) : flatMapOk (mremove m k) = true := by
  induction m with
  | nil => simp [mremove, flatMapOk]
  | cons hd tl ih =>
      obtain ⟨a, w⟩ := hd
      simp only [flatMapOk, Bool.and_eq_true] at hm
      by_cases ha : a = k
      · simp [mremove, ha, hm.2]
      · simp [mremove, ha, flatMapOk, hm.1, ih hm.2]

theorem flatten_value_ok (b : FlatMap) (id : String) (v : Value) (w : Bool)
    (hb : flatMapOk b = true) (hv : isScalar v = true) :
    flatMapOk (flatten_value b id v w) = true := by
  cases hg : mget b id with
  | none =>
      rw [flatten_value_absent _ _ _ _ hg]
      refine flatMapOk_mset _ _ _ hb ?_
      cases w
      · exact flatValue_of_isScalar v hv
      · simpa [flatValue, List.all] using hv
  | some old =>
      have hold : flatValue old = true := flatValue_of_mget _ _ _ hb hg
      cases old with
      | obj o => simp [flatValue] at hold
      | arr xs =>
          rw [flatten_value_arr _ _ _ _ _ hg]
          refine flatMapOk_mset _ _ _ hb ?_
          simp only [flatValue] at hold ⊢
          simp [List.all_append, hold, List.all, hv]
      | null =>
          rw [flatten_value_coll_nonarr _ _ _ _ _ hg
            (isScalar_not_arr _ rfl)]
          refine flatMapOk_mset _ _ _ (flatMapOk_mremove _ _ hb) ?_
          simpa [flatValue, List.all, isScalar] using hv
      | bool x =>
          rw [flatten_value_coll_nonarr _ _ _ _ _ hg
            (isScalar_not_arr _ rfl)]
          refine flatMapOk_mset _ _ _ (flatMapOk_mremove _ _ hb) ?_
          simpa [flatValue, List.all, isScalar] using hv
      | num x =>
          rw [flatten_value_coll_nonarr _ _ _ _ _ hg
            (isScalar_not_arr _ rfl)]
          refine flatMapOk_mset _ _ _ (flatMapOk_mremove _ _ hb) ?_
          simpa [flatValue, List.all, isScalar] using hv
      | str x =>
          rw [flatten_value_coll_nonarr _ _ _ _ _ hg
            (isScalar_not_arr _ rfl)]
          refine flatMapOk_mset _ _ _ (flatMapOk_mremove _ _ hb) ?_
          simpa [flatValue, List.all, isScalar] using hv

end FlatInvariant

section WalkerInvariant

mutual

theorem flatten_entry_ok (f : Flattener) (b : FlatMap) (x : String)
    (v : Value) (a : Bool) (hb : flatMapOk b = true) :
    flatMapOk (flatten_entry f b x v a) = true := by
  cases v with
  | obj o => exact flatten_object_ok f b (some x) o a hb
  | arr l => exact flatten_array_ok f b x l 0 hb
  | null => exact flatten_value_ok b x Value.null a hb rfl
  | bool y => exact flatten_value_ok b x (Value.bool y) a hb rfl
  | num y => exact flatten_value_ok b x (Value.num y) a hb rfl
  | str y => exact flatten_value_ok b x (Value.str y) a hb rfl
termination_by structural v

theorem flatten_object_ok (f : Flattener) (b : FlatMap)
    (identifier : Option String) (obj : List (String × Value)) (a : Bool)
    (hb : flatMapOk b = true) :
    flatMapOk (flatten_object f b identifier obj a) = true := by
  cases obj with
  | nil => exact hb
  | cons hd rest =>
      obtain ⟨k, v⟩ := hd
      exact flatten_object_ok f
        (flatten_entry f b
          (match identifier with
           | none => k
           | some id => id ++ f.separator ++ k) v a)
        identifier rest a
        (flatten_entry_ok f b
          (match identifier with
           | none => k
           | some id => id ++ f.separator ++ k) v a hb)
termination_by structural obj

theorem flatten_elem_ok (f : Flattener) (b : FlatMap) (x : String)
    (v : Value) (hb : flatMapOk b = true) :
    flatMapOk (flatten_elem f b x v) = true := by
  cases v with
  | obj o => exact flatten_object_ok f b (some x) o f.alt_array_flattening hb
  | arr l => exact flatten_array_ok f b x l 0 hb
  | null => exact flatten_value_ok b x Value.null f.alt_array_flattening hb rfl
  | bool y =>
      exact flatten_value_ok b x (Value.bool y) f.alt_array_flattening hb rfl
  | num y =>
      exact flatten_value_ok b x (Value.num y) f.alt_array_flattening hb rfl
  | str y =>
      exact flatten_value_ok b x (Value.str y) f.alt_array_flattening hb rfl
termination_by structural v

theorem flatten_array_ok (f : Flattener) (b : FlatMap) (identifier : String)
    (obj : List Value) (k : Nat) (hb : flatMapOk b = true) :
    flatMapOk (flatten_array f b identifier obj k) = true := by
  cases obj with
  | nil => exact hb
  | cons v rest =>
      exact flatten_array_ok f
        (flatten_elem f b
          (if f.preserve_arrays then identifier ++ f.separator ++ Nat.repr k
           else identifier) v)
        identifier rest (k + 1)
        (flatten_elem_ok f b
          (if f.preserve_arrays then identifier ++ f.separator ++ Nat.repr k
           else identifier) v hb)
termination_by structural obj

end

end WalkerInvariant

/-- Claim C1: when the leaf-writer inserts a scalar under an identifier the
flat container already holds, an existing array gets the new scalar appended
at its end, and an existing lone scalar is replaced by the two-element array
of the existing value followed by the new one; consequently two writes that
arrive at the same identifier produce a merged array listing the first
arrival before the second. -/
theorem flatten_value_merge_arrival_order (b : FlatMap) (id : String)
    (v1 v2 nv : Value) (w w1 w2 : Bool) :
    (∀ xs, mget b id = some (Value.arr xs) →
        mget (flatten_value b id nv w) id = some (Value.arr (xs ++ [nv]))) ∧
    (∀ old, mget b id = some old → isScalar old = true →
        mget (flatten_value b id nv w) id = some (Value.arr [old, nv])) ∧
    (mget b id = none → isScalar v1 = true →
        mget (flatten_value (flatten_value b id v1 w1) id v2 w2) id =
          some (Value.arr [v1, v2])) := by
  refine ⟨?_, ?_, ?_⟩
  · intro xs hg
    rw [flatten_value_arr _ _ _ _ _ hg]
    exact mget_mset_self _ _ _
  · intro old hg hs
    rw [flatten_value_coll_nonarr _ _ _ _ _ hg (isScalar_not_arr old hs)]
    exact mget_mset_self _ _ _
  · intro h0 hs
    rw [flatten_value_absent _ _ _ _ h0]
    cases w1 with
    | true =>
        rw [if_pos rfl]
        rw [flatten_value_arr _ _ [v1] _ _ (mget_mset_self b id _)]
        exact mget_mset_self _ _ _
    | false =>
        rw [if_neg (by decide)]
        rw [flatten_value_coll_nonarr _ _ v1 _ _ (mget_mset_self b id _)
          (isScalar_not_arr v1 hs)]
        exact mget_mset_self _ _ _

/-- Witness for C1 at concrete inputs: append to an existing array, merge
with an existing scalar, and the two-write arrival order. -/
theorem flatten_value_merge_arrival_order_witness :
    mget (flatten_value [("k", Value.arr [Value.str "a"])] "k"
        (Value.str "b") false) "k" =
      some (Value.arr [Value.str "a", Value.str "b"]) ∧
    mget (flatten_value [("k", Value.num 1)] "k" (Value.str "b") true) "k" =
      some (Value.arr [Value.num 1, Value.str "b"]) ∧
    mget (flatten_value (flatten_value [] "k" (Value.str "a") false) "k"
        (Value.str "b") true) "k" =
      some (Value.arr [Value.str "a", Value.str "b"]) := by
  refine ⟨?_, ?_, ?_⟩
  · exact (flatten_value_merge_arrival_order [("k", Value.arr [Value.str "a"])]
      "k" (Value.str "a") (Value.str "b") (Value.str "b") false false
      false).1 [Value.str "a"] rfl
  · exact (flatten_value_merge_arrival_order [("k", Value.num 1)] "k"
      (Value.str "a") (Value.str "b") (Value.str "b") true false
      false).2.1 (Value.num 1) rfl rfl
  · exact (flatten_value_merge_arrival_order [] "k" (Value.str "a")
      (Value.str "b") (Value.str "b") false false true).2.2 rfl rfl

/-- Claim C2 as stated is false: the array-walker hands a scalar element to
the leaf-writer with the array-context flag equal to alt_array_flattening,
not the constant true.  Under the default configuration the single-element
array input yields a bare scalar, not a wrapped one-element array. -/
theorem array_scalar_flag_counterexample :
    flatten Flattener.new (Value.obj [("a", Value.arr [Value.str "x"])]) =
      Value.obj [("a", Value.str "x")] ∧
    Value.str "x" ≠ Value.arr [Value.str "x"] :=
  ⟨rfl, fun h => Value.noConfusion h⟩

/-- Claim C2 (amended): for every array element that is a scalar the
array-walker hands it to the leaf-writer with the array-context flag equal
to alt_array_flattening, so wrapping happens exactly when that mode is on;
with the default configuration the single-element array collapses to a bare
scalar, and with alt_array_flattening it is wrapped. -/
theorem array_scalar_flag_is_alt_mode (f : Flattener) (b : FlatMap)
    (id : String) (v : Value) (rest : List Value) (k : Nat) :
    (isScalar v = true →
      flatten_array f b id (v :: rest) k =
        flatten_array f
          (flatten_value b
            (if f.preserve_arrays then id ++ f.separator ++ Nat.repr k else id)
            v f.alt_array_flattening)
          id rest (k + 1)) ∧
    flatten Flattener.new (Value.obj [("a", Value.arr [Value.str "x"])]) =
      Value.obj [("a", Value.str "x")] ∧
    flatten { Flattener.new with alt_array_flattening := true }
        (Value.obj [("a", Value.arr [Value.str "x"])]) =
      Value.obj [("a", Value.arr [Value.str "x"])] := by
  refine ⟨?_, rfl, rfl⟩
  intro hv
  cases v with
  | obj o => simp [isScalar] at hv
  | arr l => simp [isScalar] at hv
  | null => rfl
  | bool y => rfl
  | num y => rfl
  | str y => rfl

/-- Witness for the amended C2 at a concrete scalar element. -/
theorem array_scalar_flag_is_alt_mode_witness :
    flatten_array Flattener.new [] "a" [Value.str "x"] 0 =
      flatten_array Flattener.new
        (flatten_value [] "a" (Value.str "x") false) "a" [] 1 :=
  (array_scalar_flag_is_alt_mode Flattener.new [] "a" (Value.str "x") [] 0).1
    rfl

/-- Claim C3: a write that targets an identifier already holding a value
never silently overwrites it: the key afterwards holds an array that still
carries the previous value or values with the new scalar merged in, and
every other key is untouched. -/
theorem flatten_no_silent_overwrite (b : FlatMap) (id : String) (nv : Value)
    (w : Bool) :
    (∀ old, mget b id = some old →
        ∃ xs, mget (flatten_value b id nv w) id = some (Value.arr xs) ∧
          (match old with
           | Value.arr ys => xs = ys ++ [nv]
           | _ => xs = [old, nv])) ∧
    (∀ k, k ≠ id → mget (flatten_value b id nv w) k = mget b k) := by
  constructor
  · intro old hg
    cases old with
    | arr ys =>
        refine ⟨ys ++ [nv], ?_, rfl⟩
        rw [flatten_value_arr _ _ _ _ _ hg]
        exact mget_mset_self _ _ _
    | obj o =>
        refine ⟨[Value.obj o, nv], ?_, rfl⟩
        rw [flatten_value_coll_nonarr _ _ _ _ _ hg
          (fun ys h => Value.noConfusion h)]
        exact mget_mset_self _ _ _
    | null =>
        refine ⟨[Value.null, nv], ?_, rfl⟩
        rw [flatten_value_coll_nonarr _ _ _ _ _ hg
          (fun ys h => Value.noConfusion h)]
        exact mget_mset_self _ _ _
    | bool y =>
        refine ⟨[Value.bool y, nv], ?_, rfl⟩
        rw [flatten_value_coll_nonarr _ _ _ _ _ hg
          (fun ys h => Value.noConfusion h)]
        exact mget_mset_self _ _ _
    | num y =>
        refine ⟨[Value.num y, nv], ?_, rfl⟩
        rw [flatten_value_coll_nonarr _ _ _ _ _ hg
          (fun ys h => Value.noConfusion h)]
        exact mget_mset_self _ _ _
    | str y =>
        refine ⟨[Value.str y, nv], ?_, rfl⟩
        rw [flatten_value_coll_nonarr _ _ _ _ _ hg
          (fun ys h => Value.noConfusion h)]
        exact mget_mset_self _ _ _
  · intro k hk
    cases hg : mget b id with
    | none =>
        rw [flatten_value_absent _ _ _ _ hg]
        exact mget_mset_ne _ _ _ _ hk
    | some old =>
        cases old with
        | arr ys =>
            rw [flatten_value_arr _ _ _ _ _ hg]
            exact mget_mset_ne _ _ _ _ hk
        | obj o =>
            rw [flatten_value_coll_nonarr _ _ _ _ _ hg
              (fun ys h => Value.noConfusion h),
              mget_mset_ne _ _ _ _ hk]
            exact mget_mremove_ne _ _ _ hk
        | null =>
            rw [flatten_value_coll_nonarr _ _ _ _ _ hg
              (fun ys h => Value.noConfusion h),
              mget_mset_ne _ _ _ _ hk]
            exact mget_mremove_ne _ _ _ hk
        | bool y =>
            rw [flatten_value_coll_nonarr _ _ _ _ _ hg
              (fun ys h => Value.noConfusion h),
              mget_mset_ne _ _ _ _ hk]
            exact mget_mremove_ne _ _ _ hk
        | num y =>
            rw [flatten_value_coll_nonarr _ _ _ _ _ hg
              (fun ys h => Value.noConfusion h),
              mget_mset_ne _ _ _ _ hk]
            exact mget_mremove_ne _ _ _ hk
        | str y =>
            rw [flatten_value_coll_nonarr _ _ _ _ _ hg
              (fun ys h => Value.noConfusion h),
              mget_mset_ne _ _ _ _ hk]
            exact mget_mremove_ne _ _ _ hk

/-- Witness for C3 at a concrete collision and a concrete untouched key. -/
theorem flatten_no_silent_overwrite_witness :
    (∃ xs, mget (flatten_value [("k", Value.str "a")] "k" (Value.str "b")
        false) "k" = some (Value.arr xs) ∧
      xs = [Value.str "a", Value.str "b"]) ∧
    mget (flatten_value [("k", Value.str "a")] "k" (Value.str "b") false)
        "q" = mget [("k", Value.str "a")] "q" := by
  constructor
  · exact (flatten_no_silent_overwrite [("k", Value.str "a")] "k"
      (Value.str "b") false).1 (Value.str "a") rfl
  · exact (flatten_no_silent_overwrite [("k", Value.str "a")] "k"
      (Value.str "b") false).2 "q" (by decide)

/-- Claim C4 as stated is false: under preserve_arrays the indexed key of an
array element can still coincide with an unrelated literal key of the input,
and then the array-derived value is merged into a collision array rather
than kept under a key of its own. -/
theorem preserve_arrays_merge_counterexample :
    flatten { Flattener.new with preserve_arrays := true }
        (Value.obj [("a", Value.arr [Value.str "x"]),
          ("a.0", Value.str "y")]) =
      Value.obj [("a.0", Value.arr [Value.str "x", Value.str "y"])] ∧
    Value.arr [Value.str "x", Value.str "y"] ≠ Value.str "x" :=
  ⟨rfl, fun h => Value.noConfusion h⟩

/-- Claim C4 (amended): when preserve_arrays is true, array indices are
appended as literal path segments (identifier, separator, index), so sibling
elements of one array never merge with each other, and the reference input
flattens to indexed keys with no merging; merging can still occur when an
unrelated input key spells the same dotted identifier. -/
theorem preserve_arrays_literal_index_segments (f : Flattener) (b : FlatMap)
    (id : String) (v : Value) (rest : List Value) (k : Nat) :
    (f.preserve_arrays = true →
      flatten_array f b id (v :: rest) k =
        flatten_array f
          (flatten_elem f b (id ++ f.separator ++ Nat.repr k) v) id rest
          (k + 1)) ∧
    flatten { Flattener.new with preserve_arrays := true }
        (Value.obj [("a", Value.arr [Value.obj [("b", Value.str "1")],
          Value.obj [("b", Value.str "2")],
          Value.obj [("b", Value.str "3")]])]) =
      Value.obj [("a.0.b", Value.str "1"), ("a.1.b", Value.str "2"),
        ("a.2.b", Value.str "3")] := by
  refine ⟨?_, rfl⟩
  intro hp
  show flatten_array f
      (flatten_elem f b
        (if f.preserve_arrays then id ++ f.separator ++ Nat.repr k else id)
        v)
      id rest (k + 1) = _
  rw [hp]
  simp

/-- Witness for the amended C4 at a concrete element under preserve_arrays. -/
theorem preserve_arrays_literal_index_segments_witness :
    flatten_array { Flattener.new with preserve_arrays := true } [] "a"
        [Value.str "x"] 0 =
      flatten_array { Flattener.new with preserve_arrays := true }
        (flatten_elem { Flattener.new with preserve_arrays := true } []
          ("a" ++ "." ++ Nat.repr 0) (Value.str "x")) "a" [] 1 :=
  (preserve_arrays_literal_index_segments
    { Flattener.new with preserve_arrays := true } [] "a" (Value.str "x") []
    0).1 rfl

/-- Claim C5: with alt_array_flattening every scalar reached while walking
array elements (the dispatch into objects inside arrays passes the mode flag
down) is inserted wrapped in a one-element array even without a collision,
while the default inserts it bare; the reference example shows both modes. -/
theorem alt_array_flattening_wraps_scalars (f : Flattener) (b : FlatMap)
    (id x : String) (v : Value) (o : List (String × Value)) :
    (mget b id = none →
        mget (flatten_value b id v true) id = some (Value.arr [v]) ∧
        mget (flatten_value b id v false) id = some v) ∧
    (flatten_elem f b x (Value.obj o) =
        flatten_object f b (some x) o f.alt_array_flattening) ∧
    flatten Flattener.new
        (Value.obj [("a", Value.arr [Value.obj [("b", Value.str "c")]])]) =
      Value.obj [("a.b", Value.str "c")] ∧
    flatten { Flattener.new with alt_array_flattening := true }
        (Value.obj [("a", Value.arr [Value.obj [("b", Value.str "c")]])]) =
      Value.obj [("a.b", Value.arr [Value.str "c"])] := by
  refine ⟨?_, rfl, rfl, rfl⟩
  intro h
  constructor
  · rw [flatten_value_absent _ _ _ _ h]
    exact mget_mset_self b id (Value.arr [v])
  · rw [flatten_value_absent _ _ _ _ h]
    exact mget_mset_self b id v

/-- Witness for C5 at a concrete fresh key. -/
theorem alt_array_flattening_wraps_scalars_witness :
    mget (flatten_value [] "k" (Value.str "c") true) "k" =
        some (Value.arr [Value.str "c"]) ∧
    mget (flatten_value [] "k" (Value.str "c") false) "k" =
        some (Value.str "c") :=
  (alt_array_flattening_wraps_scalars Flattener.new [] "k" "x"
    (Value.str "c") []).1 rfl

/-- Claim C6: flatten always returns an object value, and a scalar root is
stored under the empty-string key. -/
theorem flatten_returns_object (f : Flattener) (j : Value) :
    (∃ m : FlatMap, flatten f j = Value.obj m) ∧
    (isScalar j = true → flatten f j = Value.obj [("", j)]) := by
  constructor
  · cases j with
    | obj o => exact ⟨_, rfl⟩
    | arr l => exact ⟨_, rfl⟩
    | null => exact ⟨_, rfl⟩
    | bool y => exact ⟨_, rfl⟩
    | num y => exact ⟨_, rfl⟩
    | str y => exact ⟨_, rfl⟩
  · intro h
    cases j with
    | obj o => simp [isScalar] at h
    | arr l => simp [isScalar] at h
    | null => rfl
    | bool y => rfl
    | num y => rfl
    | str y => rfl

/-- Witness for C6 at a concrete scalar root. -/
theorem flatten_returns_object_witness :
    flatten Flattener.new (Value.str "abc") =
      Value.obj [("", Value.str "abc")] :=
  (flatten_returns_object Flattener.new (Value.str "abc")).2 rfl

/-- Claim C7: under the default configuration a bare top-level array keeps
its elements merged under the empty-string key and a bare top-level scalar
is stored under the empty-string key. -/
theorem flatten_bare_root_empty_key :
    flatten Flattener.new (Value.arr [Value.str "a", Value.str "b"]) =
      Value.obj [("", Value.arr [Value.str "a", Value.str "b"])] ∧
    flatten Flattener.new (Value.str "abc") =
      Value.obj [("", Value.str "abc")] :=
  ⟨rfl, rfl⟩

/-- Claim C8: flatten is total.  The traversal is realized here as a mutual
structural recursion accepted by the termination checker, so every input
terminates by construction, and the result is always a well-formed object
value. -/
theorem flatten_total (f : Flattener) (j : Value) :
    ∃ m : FlatMap, flatten f j = Value.obj m := by
  cases j with
  | obj o => exact ⟨_, rfl⟩
  | arr l => exact ⟨_, rfl⟩
  | null => exact ⟨_, rfl⟩
  | bool y => exact ⟨_, rfl⟩
  | num y => exact ⟨_, rfl⟩
  | str y => exact ⟨_, rfl⟩

/-- Claim C9: empty objects and empty arrays contribute no key: the walkers
return the accumulator unchanged on an empty container, the top-level empty
object and empty array flatten to the empty object, and a nested entry whose
value is an empty container is dropped. -/
theorem flatten_empty_containers_no_keys (f : Flattener) :
    flatten f (Value.obj []) = Value.obj [] ∧
    flatten f (Value.arr []) = Value.obj [] ∧
    (∀ (b : FlatMap) (i : Option String) (a : Bool),
        flatten_object f b i [] a = b) ∧
    (∀ (b : FlatMap) (i : String) (k : Nat), flatten_array f b i [] k = b) ∧
    (∀ (b : FlatMap) (x : String) (a : Bool),
        flatten_entry f b x (Value.obj []) a = b) ∧
    (∀ (b : FlatMap) (x : String) (a : Bool),
        flatten_entry f b x (Value.arr []) a = b) ∧
    (∀ (b : FlatMap) (x : String), flatten_elem f b x (Value.obj []) = b) ∧
    (∀ (b : FlatMap) (x : String), flatten_elem f b x (Value.arr []) = b) ∧
    flatten Flattener.new
        (Value.obj [("e", Value.obj []),
          ("a", Value.obj [("b", Value.arr [])]), ("c", Value.str "d")]) =
      Value.obj [("c", Value.str "d")] :=
  ⟨rfl, rfl, fun _ _ _ => rfl, fun _ _ _ => rfl, fun _ _ _ => rfl,
    fun _ _ _ => rfl, fun _ _ => rfl, fun _ _ => rfl, rfl⟩

/-- Claim C10: every value stored in the flat result is a scalar or an array
of scalars; the output never maps a key to an object or to a nested array. -/
theorem flatten_output_values_flat (f : Flattener) (j : Value) :
    ∃ m : FlatMap, flatten f j = Value.obj m ∧
      ∀ p ∈ m, flatValue p.2 = true := by
  cases j with
  | obj o =>
      exact ⟨_, rfl,
        (flatMapOk_iff _).1 (flatten_object_ok f [] none o false rfl)⟩
  | arr l =>
      exact ⟨_, rfl,
        (flatMapOk_iff _).1 (flatten_array_ok f [] "" l 0 rfl)⟩
  | null =>
      exact ⟨_, rfl,
        (flatMapOk_iff _).1 (flatten_value_ok [] "" Value.null false rfl rfl)⟩
  | bool y =>
      exact ⟨_, rfl,
        (flatMapOk_iff _).1
          (flatten_value_ok [] "" (Value.bool y) false rfl rfl)⟩
  | num y =>
      exact ⟨_, rfl,
        (flatMapOk_iff _).1
          (flatten_value_ok [] "" (Value.num y) false rfl rfl)⟩
  | str y =>
      exact ⟨_, rfl,
        (flatMapOk_iff _).1
          (flatten_value_ok [] "" (Value.str y) false rfl rfl)⟩

end SmoothJson
